import Mathlib

/-!
Verification of the time-range resolution and command-synthesis engine of
`dukatools/vidcut.py`.

The Python source is shallowly embedded: floating-point seconds become exact
rationals (`ℚ`), Python `None` becomes `Option`, process exit codes become
integers, and the per-file control flow of `main` is split into the pure
functions it is made of (`_parse_time`, `_fmt_time`, `_probe_duration_via_ffmpeg`,
`_build_fast_cmd`, `_build_acc_cmd`, `_run`, plus the range-resolution block and
the fast/accurate fallback policy of `main`).
-/

set_option maxRecDepth 4000

/-! ### Character and list helpers (ASCII models of the Python string methods) -/

/-- ASCII digit test: models the digit characters accepted by Python `float`
and by the `\d` class of the probe regex (restricted to ASCII). -/
def isDigitCh (c : Char) : Bool := 48 ≤ c.toNat && c.toNat ≤ 57

/-- ASCII whitespace test: models the characters removed by Python `str.strip`
and matched by the regex class `\s` (restricted to ASCII). -/
def isWsCh (c : Char) : Bool :=
  c.toNat == 32 || c.toNat == 9 || c.toNat == 10 || c.toNat == 13 ||
  c.toNat == 11 || c.toNat == 12

/-- Models Python `str.strip()`: drop whitespace from both ends. -/
def stripWs (cs : List Char) : List Char :=
  ((cs.dropWhile isWsCh).reverse.dropWhile isWsCh).reverse

/-- Models Python `str.lower()`, restricted to ASCII letters. -/
def lowerCh (c : Char) : Char :=
  if 65 ≤ c.toNat ∧ c.toNat ≤ 90 then Char.ofNat (c.toNat + 32) else c

/-- Split a character list on a separator character, models Python
`str.split(sep)` (every occurrence separates; empty segments are kept). -/
def splitOnCh (sep : Char) (cs : List Char) : List (List Char) :=
  match cs with
  | [] => [[]]
  | c :: rest =>
    let r := splitOnCh sep rest
    if c = sep then [] :: r
    else
      match r with
      | seg :: segs => (c :: seg) :: segs
      | [] => [[c]]

/-- Models Python `str.endswith(suffix)`. -/
def isPrefixOfCh : List Char → List Char → Bool
  | [], _ => true
  | _ :: _, [] => false
  | a :: as, b :: bs => a == b && isPrefixOfCh as bs

/-- Models Python `str.endswith(suffix)` via reversed prefix matching. -/
def listEndsWith (cs suf : List Char) : Bool :=
  isPrefixOfCh suf.reverse cs.reverse

/-- Numeric value of a run of ASCII digit characters (value of Python `int`
on the digit string; also the integer part of `float`). -/
def digitsVal (cs : List Char) : ℕ :=
  cs.foldl (fun a c => 10 * a + (c.toNat - 48)) 0

/-- Value of the fractional digit string of a decimal literal: the digits
after the point, as read by Python `float`. -/
def fracVal (cs : List Char) : ℚ :=
  cs.foldr (fun c a => (((c.toNat - 48 : ℕ) : ℚ) + a) / 10) 0

/-- Strip an optional leading sign, models the sign handling of Python
`float`; returns (isNegative, rest). -/
def signSplit (cs : List Char) : Bool × List Char :=
  match cs with
  | '-' :: r => (true, r)
  | '+' :: r => (false, r)
  | r => (false, r)

/-- Models Python `float(s)` on plain decimal literals: optional surrounding
whitespace, optional sign, digits with at most one decimal point and at least
one digit overall.  (The exotic inputs `float` also accepts — exponents,
`inf`/`nan`, underscore separators — are outside the shapes the program's
time grammar produces and are not modelled.)  Failure is `none`, matching the
`ValueError` of `float`. -/
def parseFloat (cs0 : List Char) : Option ℚ :=
  let cs1 := stripWs cs0
  let (neg, cs) := signSplit cs1
  match splitOnCh '.' cs with
  | [ip] =>
    if ip ≠ [] ∧ ip.all isDigitCh then
      some (if neg then -(digitsVal ip : ℚ) else (digitsVal ip : ℚ))
    else none
  | [ip, fp] =>
    if (ip ≠ [] ∨ fp ≠ []) ∧ ip.all isDigitCh ∧ fp.all isDigitCh then
      let v : ℚ := (digitsVal ip : ℚ) + fracVal fp
      some (if neg then -v else v)
    else none
  | _ => none

/-! ### `_parse_time` (vidcut.py lines 9-17) -/

/-- The `while len(parts) < 3: parts.insert(0, 0.0)` loop of `_parse_time`:
pad the colon-field list to length 3 by prepending zeros. -/
def padFront3 (l : List ℚ) : List ℚ :=
  match l with
  | [] => [0, 0, 0]
  | [a] => [0, 0, a]
  | [a, b] => [0, a, b]
  | l => l

/-- Core of `_parse_time` on a character list: strip and lowercase, handle the
`ms` and `s` suffixes, then either the colon form `h:m:s` or a plain float.
A list of more than three colon fields makes the Python tuple unpacking
raise; that failure is `none` here, like any numeric parse failure. -/
def parseTimeCs (cs0 : List Char) : Option ℚ :=
  let cs := (stripWs cs0).map lowerCh
  if listEndsWith cs ['m', 's'] then
    (parseFloat cs.dropLast.dropLast).map (· / 1000)
  else
    let cs1 := if listEndsWith cs ['s'] then cs.dropLast else cs
    if ':' ∈ cs1 then
      match (splitOnCh ':' cs1).mapM parseFloat with
      | some ps =>
        match padFront3 ps with
        | [h, m, sec] => some (h * 3600 + m * 60 + sec)
        | _ => none
      | none => none
    else parseFloat cs1

/-- `_parse_time` (vidcut.py lines 9-17): parse a user time expression into
seconds; `none` models the uncaught `ValueError` of a failed numeric parse. -/
def parse_time (s : String) : Option ℚ := parseTimeCs s.data

/-! ### `_fmt_time` (vidcut.py lines 19-23) -/

/-- Decimal digit character: `Char.ofNat (48 + d)` is `'0'`..`'9'` for `d < 10`. -/
def digitChar (d : ℕ) : Char := Char.ofNat (48 + d)

/-- Decimal digit characters of a natural number, most significant first,
with explicit fuel (the fuel `n + 1` of `natChars` always suffices). -/
def natCharsAux : ℕ → ℕ → List Char
  | 0, _ => []
  | fuel + 1, n =>
    if n < 10 then [digitChar n]
    else natCharsAux fuel (n / 10) ++ [digitChar (n % 10)]

/-- Decimal digit characters of a natural number, models Python `"%d"`. -/
def natChars (n : ℕ) : List Char := natCharsAux (n + 1) n

/-- Left-pad a character list to width `w`, models Python's `{:02d}`/`{:03d}`
format padding (a longer string is kept unchanged). -/
def padLeft (w : ℕ) (c : Char) (cs : List Char) : List Char :=
  List.replicate (w - cs.length) c ++ cs

/-- Python `round` on a nonnegative exact value: round half to even. -/
def roundHalfEven (q : ℚ) : ℤ :=
  let f := ⌊q⌋
  let r := q - (f : ℚ)
  if r < 1 / 2 then f
  else if 1 / 2 < r then f + 1
  else if f % 2 = 0 then f else f + 1

/-- `_fmt_time` (vidcut.py lines 19-23): clamp negatives to 0, split into
whole seconds and a millisecond remainder rounded to nearest, and render
`{hh:02d}:{mm:02d}:{ss:02d}.{ms:03d}`. -/
def fmt_time (t : ℚ) : String :=
  let t1 := if t < 0 then 0 else t
  let ms := (roundHalfEven ((t1 - (⌊t1⌋ : ℚ)) * 1000)).toNat
  let total := (⌊t1⌋).toNat
  let hh := total / 3600
  let mm := total % 3600 / 60
  let ss := total % 60
  String.mk (padLeft 2 '0' (natChars hh) ++ ':' ::
    (padLeft 2 '0' (natChars mm) ++ ':' ::
      (padLeft 2 '0' (natChars ss) ++ '.' :: padLeft 3 '0' (natChars ms))))

/-! ### `_probe_duration_via_ffmpeg` (vidcut.py lines 47-57) -/

/-- Take the maximal leading run of ASCII digits, models the greedy `\d+` of
the probe regex; returns (digits, rest). -/
def takeDigits (cs : List Char) : List Char × List Char :=
  match cs with
  | [] => ([], [])
  | c :: r =>
    if isDigitCh c then
      let (a, b) := takeDigits r
      (c :: a, b)
    else ([], cs)

/-- Match a literal prefix; `some rest` on success. -/
def stripPrefixCh : List Char → List Char → Option (List Char)
  | [], cs => some cs
  | p :: ps, c :: cs => if p = c then stripPrefixCh ps cs else none
  | _ :: _, [] => none

/-- Try to match the probe regex `Duration:\s*(\d+):(\d+):(\d+(?:\.\d+)?)`
anchored at the head of `cs`; on success return
`h*3600 + m*60 + s` seconds, with `s` including the optional fraction. -/
def matchDurationAt (cs : List Char) : Option ℚ :=
  match stripPrefixCh "Duration:".data cs with
  | none => none
  | some r0 =>
    let r1 := r0.dropWhile isWsCh
    let (h, r2) := takeDigits r1
    if h = [] then none
    else
      match r2 with
      | ':' :: r3 =>
        let (m, r4) := takeDigits r3
        if m = [] then none
        else
          match r4 with
          | ':' :: r5 =>
            let (sec, r6) := takeDigits r5
            if sec = [] then none
            else
              let fracDigits : List Char :=
                match r6 with
                | '.' :: r7 => (takeDigits r7).1
                | _ => []
              some ((digitsVal h : ℚ) * 3600 + (digitsVal m : ℚ) * 60 +
                ((digitsVal sec : ℚ) + fracVal fracDigits))
          | _ => none
      | _ => none

/-- Leftmost match of the duration regex in a text, models `re.search`. -/
def findDuration : List Char → Option ℚ
  | [] => none
  | c :: rest =>
    match matchDurationAt (c :: rest) with
    | some v => some v
    | none => findDuration rest

/-- `_probe_duration_via_ffmpeg` (vidcut.py lines 47-57): the probe's input is
the outcome of the child-process invocation — `none` when the invocation
itself raised, `some stderr` otherwise.  Any failure (invocation or regex
mismatch) yields `none`; the function never fails hard. -/
def probe_duration (invocation : Option String) : Option ℚ :=
  match invocation with
  | none => none
  | some stderr => findDuration stderr.data

/-! ### Range resolution (vidcut.py `main`, lines 170-196) -/

/-- The five optional user time inputs, after `_parse_time` (vidcut.py lines
170-174): `--from`, `--to`, `--duration`, `--trim-start`, `--trim-end`. -/
structure RawTimeInputs where
  start : Option ℚ
  to_abs : Option ℚ
  dur : Option ℚ
  trim_start : Option ℚ
  trim_end : Option ℚ
  deriving DecidableEq

/-- The two `_fail` exits of the resolution block: "Cannot detect duration"
(line 187) and "Trim range invalid" (line 196). -/
inductive ResolveError where
  | probeUnavailable
  | invalidRange
  deriving DecidableEq

/-- Effective start (vidcut.py lines 180-181): supplied start or 0; a truthy
(present and nonzero) `trim_start` adds on, clamped at 0. -/
def effectiveStart (raw : RawTimeInputs) : ℚ :=
  let s0 := raw.start.getD 0
  match raw.trim_start with
  | some ts => if ts = 0 then s0 else max 0 (s0 + ts)
  | none => s0

/-- The range-resolution block of `main` (vidcut.py lines 180-196), one input
file.  `probe` is the (lazy) probe result; the returned `Bool` records
whether the probe was invoked (lines 183-185).  The value is the canonical
`(start, duration)` pair, with `none` duration meaning unbounded. -/
def resolveRange (raw : RawTimeInputs) (probe : Option ℚ) :
    Except ResolveError (ℚ × Option ℚ) × Bool :=
  let s := effectiveStart raw
  let needsProbe := raw.to_abs.isSome || raw.trim_end.isSome
  let D : Option ℚ := if needsProbe then probe else none
  if needsProbe && D.isNone && raw.trim_end.isSome then
    (.error .probeUnavailable, needsProbe)
  else
    let d : Option ℚ :=
      match raw.to_abs with
      | some e =>
        if 0 ≤ e then some (max 0 (e - s))
        else
          match raw.dur with
          | some dv => some (max 0 dv)
          | none => none
      | none =>
        match raw.dur with
        | some dv => some (max 0 dv)
        | none => none
    match raw.trim_end with
    | some te =>
      let keepTo := max 0 (D.getD 0 - te)
      let d2 := keepTo - s
      if d2 < 0 then (.error .invalidRange, needsProbe)
      else (.ok (s, some d2), needsProbe)
    | none => (.ok (s, d), needsProbe)

/-! ### Command synthesis (vidcut.py lines 44-45, 59-80, 202) -/

/-- `PurePath.suffix` of Python's pathlib on a plain path string: the last
dot-suffix of the final path component, empty unless the last dot sits
strictly inside the name. -/
def pathSuffix (cs : List Char) : List Char :=
  let name := (splitOnCh '/' cs).getLastD []
  match name.reverse.findIdx? (· = '.') with
  | some k =>
    let i := name.length - 1 - k
    if 0 < i ∧ i < name.length - 1 then name.drop i else []
  | none => []

/-- `_is_mp4` (vidcut.py lines 44-45): lowercased suffix in {.mp4, .m4v, .mov}. -/
def is_mp4 (p : String) : Bool :=
  let suf := (pathSuffix p.data).map lowerCh
  suf == ".mp4".data || suf == ".m4v".data || suf == ".mov".data

/-- `_build_fast_cmd` (vidcut.py lines 59-69): fast stream-copy command;
`-ss` before `-i`, `-c copy`, optional `-t`, `+faststart` for mp4-like output. -/
def build_fast_cmd (ffmpeg inp outp : String) (start dur : Option ℚ)
    (overwrite : Bool) : List String :=
  [ffmpeg, "-hide_banner", if overwrite then "-y" else "-n"]
  ++ (match start with
      | some st => ["-ss", fmt_time st]
      | none => [])
  ++ ["-i", inp]
  ++ (match dur with
      | some d => ["-t", fmt_time (max 0 d)]
      | none => [])
  ++ ["-map", "0", "-c", "copy", "-avoid_negative_ts", "make_zero"]
  ++ (if is_mp4 outp then ["-movflags", "+faststart"] else [])
  ++ [outp]

/-- `_build_acc_cmd` (vidcut.py lines 71-80): accurate re-encoding command;
`-i` before `-ss`, `-c:v libx264 … -c:a copy`, optional `-t`. -/
def build_acc_cmd (ffmpeg inp outp : String) (start dur : Option ℚ)
    (overwrite : Bool) : List String :=
  [ffmpeg, "-hide_banner", if overwrite then "-y" else "-n", "-i", inp]
  ++ (match start with
      | some st => ["-ss", fmt_time st]
      | none => [])
  ++ (match dur with
      | some d => ["-t", fmt_time (max 0 d)]
      | none => [])
  ++ ["-map", "0", "-c:v", "libx264", "-preset", "veryfast", "-crf", "18",
      "-c:a", "copy"]
  ++ (if is_mp4 outp then ["-movflags", "+faststart"] else [])
  ++ [outp]

/-- The start argument `main` hands to both builders (vidcut.py lines 202,
207, 212): `s if s > 0 else None`. -/
def startArg (s : ℚ) : Option ℚ := if 0 < s then some s else none

/-! ### Execution strategy (vidcut.py lines 82-86 and 200-215) -/

/-- Which command a run executes. -/
inductive Via where
  | fast
  | accurate
  deriving DecidableEq

/-- Per-input outcome of the execution strategy: success via one of the two
commands, a `_fail` exit, or the dry-run short circuit that only prints. -/
inductive Outcome where
  | succeeded (v : Via)
  | failed
  | dryRunPrinted
  deriving DecidableEq

/-- `_run` (vidcut.py lines 82-86): the child process either starts and
yields an exit code, or the binary is missing (`FileNotFoundError`), mapped
to the distinguished exit code 127. -/
def run_cmd_rc (res : Except Unit ℤ) : ℤ :=
  match res with
  | .ok rc => rc
  | .error _ => 127

/-- `prefer_fast` (vidcut.py line 200): `not args.accurate or args.fast`. -/
def preferFastMode (accurate fastFlag : Bool) : Bool := !accurate || fastFlag

/-- The per-input execution strategy of `main` (vidcut.py lines 200-215),
with the commands abstracted to their invocation results (`.error ()` =
binary not found).  Returns the list of commands actually executed, in
order, together with the outcome. -/
def executePolicy (preferFast dryRun : Bool) (fastRes accRes : Except Unit ℤ) :
    List Via × Outcome :=
  if preferFast then
    if dryRun then ([], .dryRunPrinted)
    else
      let rc := run_cmd_rc fastRes
      if rc ≠ 0 then
        if dryRun then ([.fast], .dryRunPrinted)
        else
          let rc2 := run_cmd_rc accRes
          if rc2 ≠ 0 then ([.fast, .accurate], .failed)
          else ([.fast, .accurate], .succeeded .accurate)
      else ([.fast], .succeeded .fast)
  else
    if dryRun then ([], .dryRunPrinted)
    else
      let rc := run_cmd_rc accRes
      if rc ≠ 0 then ([.accurate], .failed)
      else ([.accurate], .succeeded .accurate)

/-! ### Decimal renderings (specification vocabulary for the parser theorems) -/

/-- Characters of the time grammar: `.`(46), digits (48-57), `:`(58), and the
suffix letters `m`(109) and `s`(115); all are whitespace-free and untouched by
lowercasing. -/
def plainChar (c : Char) : Prop :=
  (46 ≤ c.toNat ∧ c.toNat ≤ 58) ∨ c.toNat = 109 ∨ c.toNat = 115

/-- Value of a fractional digit list `d₁d₂…` as `0.d₁d₂…`. -/
def fracDigitsVal (fds : List ℕ) : ℚ :=
  fds.foldr (fun d a => ((d : ℚ) + a) / 10) 0

/-- The decimal string `ip.d₁d₂…` as a character list. -/
def renderDec (ip : ℕ) (fds : List ℕ) : List Char :=
  natChars ip ++ '.' :: fds.map digitChar

/-- The rational value `ip.d₁d₂…` denotes. -/
def decimalVal (ip : ℕ) (fds : List ℕ) : ℚ := (ip : ℚ) + fracDigitsVal fds

/-! ### Decidability plumbing for concrete evaluation -/

attribute [local semireducible] Rat.add Rat.mul Rat.inv Rat.sub

instance {ε α : Type} [DecidableEq ε] [DecidableEq α] : DecidableEq (Except ε α)
  | .error a, .error b =>
    if h : a = b then .isTrue (congrArg Except.error h)
    else .isFalse (fun hh => h (Except.error.inj hh))
  | .error _, .ok _ => .isFalse (fun hh => Except.noConfusion hh)
  | .ok _, .error _ => .isFalse (fun hh => Except.noConfusion hh)
  | .ok a, .ok b =>
    if h : a = b then .isTrue (congrArg Except.ok h)
    else .isFalse (fun hh => h (Except.ok.inj hh))

/-! ### Claim theorems -/

/-- C1 counterexample: at the spec's own example `resolve({start: 50, end: 40})`
(with a probe stub yielding 100), the code does **not** fail with
`InvalidRange`: the negative difference `end - effectiveStart = -10` is
clamped by `max(0.0, to_abs - s)` (vidcut.py line 189) and a range with
duration 0 is returned. -/
theorem c1_end_before_start_counterexample :
    resolveRange ⟨some 50, some 40, none, none, none⟩ (some 100)
        = (.ok (50, some 0), true)
    ∧ (resolveRange ⟨some 50, some 40, none, none, none⟩ (some 100)).1
        ≠ .error .invalidRange := by
  exact ⟨by decide, by decide⟩

/-- C4 (code bug): at `t = 0.9996` the fractional remainder rounds to 1000
milliseconds, so `_fmt_time` emits the four-digit millisecond field
`00:00:00.1000` instead of the `HH:MM:SS.mmm` shape; parsed back it reads as
0.1 s, an error of 0.8996 s, far beyond the claimed 1 ms round-trip bound. -/
theorem c4_format_millisecond_overflow :
    fmt_time (9996 / 10000) = "00:00:00.1000"
    ∧ parse_time (fmt_time (9996 / 10000)) = some (1 / 10)
    ∧ ¬|(9996 / 10000 : ℚ) - 1 / 10| ≤ 1 / 1000 := by
  exact ⟨by decide, by decide, by decide⟩

/-- C9 counterexample: `_parse_time` accepts `"-1"` and returns the negative
value −1, and with `--from` parsed to −5 the resolved effective start is −5:
neither value is clamped to 0, refuting the unconditional non-negativity
invariant. -/
theorem c9_negative_values_counterexample :
    parse_time "-1" = some (-1)
    ∧ ¬((0 : ℚ) ≤ -1)
    ∧ (resolveRange ⟨some (-5), none, none, none, none⟩ none).1 = .ok (-5, none)
    ∧ ¬((0 : ℚ) ≤ -5) := by
  exact ⟨by decide, by decide, by decide, by decide⟩

/-- C1 (amended): when an absolute end `e ≥ 0` is supplied and no tail-trim is
present, resolution never fails: a negative `e - effectiveStart` is clamped
to 0 (vidcut.py line 189) and the range is returned with that clamped
duration.  `InvalidRange` can only arise from the tail-trim branch. -/
theorem c1_end_clamped_not_invalid (raw : RawTimeInputs) (probe : Option ℚ)
    (e : ℚ) (habs : raw.to_abs = some e) (he : 0 ≤ e)
    (hte : raw.trim_end = none) :
    (resolveRange raw probe).1
      = .ok (effectiveStart raw, some (max 0 (e - effectiveStart raw))) := by
  obtain ⟨st, ta, du, ts, te⟩ := raw
  dsimp only at habs hte
  subst habs hte
  simp [resolveRange, he]

/-- Witness for C1's amended theorem at the spec's example input. -/
theorem c1_end_clamped_not_invalid_witness :
    (resolveRange ⟨some 50, some 40, none, none, none⟩ (some 100)).1
      = .ok (50, some 0) := by
  have h := c1_end_clamped_not_invalid ⟨some 50, some 40, none, none, none⟩
    (some 100) 40 rfl (by norm_num) rfl
  rw [h]; decide

/-- C2: whenever `trimEnd` is present the probe is invoked, and (when the
resulting duration is not negative) the resolved range is
`(effectiveStart, max 0 (D - trimEnd) - effectiveStart)`, regardless of any
supplied absolute end or relative duration; in particular `D = 60`,
`trimEnd = 5` resolves to `(0, 55)`. -/
theorem c2_trim_end_precedence (raw : RawTimeInputs) (Dv te : ℚ)
    (hte : raw.trim_end = some te) :
    (resolveRange raw (some Dv)).2 = true
    ∧ (0 ≤ max 0 (Dv - te) - effectiveStart raw →
        (resolveRange raw (some Dv)).1
          = .ok (effectiveStart raw, some (max 0 (Dv - te) - effectiveStart raw)))
    ∧ resolveRange ⟨none, none, none, none, some 5⟩ (some 60)
        = (.ok (0, some 55), true) := by
  obtain ⟨st, ta, du, ts, te'⟩ := raw
  dsimp only at hte
  subst hte
  refine ⟨by simp [resolveRange, apply_ite Prod.snd], ?_, by decide⟩
  intro hge
  have hnl := not_lt.mpr hge
  simp [resolveRange, hnl]

/-- Witness for C2 at `trimEnd = 5`, probed duration 60, overriding a
conflicting absolute end and duration. -/
theorem c2_trim_end_precedence_witness :
    resolveRange ⟨none, none, none, none, some 5⟩ (some 60)
      = (.ok (0, some 55), true)
    ∧ (resolveRange ⟨none, some 10, some 7, none, some 5⟩ (some 60)).1
      = .ok (0, some 55) := by
  constructor
  · exact (c2_trim_end_precedence ⟨none, none, none, none, some 5⟩ 60 5 rfl).2.2
  · have h := (c2_trim_end_precedence ⟨none, some 10, some 7, none, some 5⟩
      60 5 rfl).2.1 (by norm_num [effectiveStart])
    rw [h]; decide

/-- C3: with neither an absolute end nor a tail-trim, the probe is never
invoked and the duration comes from `raw.duration` alone (unbounded when
absent); `resolve({duration: 10})` from any start `s ≥ 0` gives `(s, 10)`. -/
theorem c3_no_end_no_probe (raw : RawTimeInputs) (probe : Option ℚ)
    (h1 : raw.to_abs = none) (h2 : raw.trim_end = none)
    (h3 : ∀ dv, raw.dur = some dv → 0 ≤ dv) :
    (resolveRange raw probe).2 = false
    ∧ (resolveRange raw probe).1 = .ok (effectiveStart raw, raw.dur)
    ∧ (∀ s : ℚ, 0 ≤ s →
        resolveRange ⟨some s, none, some 10, none, none⟩ probe
          = (.ok (s, some 10), false)) := by
  obtain ⟨st, ta, du, ts, te⟩ := raw
  dsimp only at h1 h2 h3
  subst h1 h2
  refine ⟨by simp [resolveRange], ?_, ?_⟩
  · cases du with
    | none => simp [resolveRange]
    | some dv => simp [resolveRange, max_eq_right (h3 dv rfl)]
  · intro s hs
    simp [resolveRange, effectiveStart]

/-- Witness for C3 at `start = 3`, `duration = 10`. -/
theorem c3_no_end_no_probe_witness :
    resolveRange ⟨some 3, none, some 10, none, none⟩ none
      = (.ok (3, some 10), false) :=
  (c3_no_end_no_probe ⟨some 3, none, some 10, none, none⟩ none rfl rfl
    (fun dv h => by cases h; norm_num)).2.2 3 (by norm_num)

/-- C6: a requested tail-trim with an absent probe result fails with
`ProbeUnavailable` (vidcut.py lines 186-187); and the probe itself is total —
a failed invocation or an unmatched diagnostic text both give "absent"
(`none`), never a hard failure. -/
theorem c6_trim_end_needs_probe (raw : RawTimeInputs) (te : ℚ)
    (hte : raw.trim_end = some te) :
    resolveRange raw none = (.error .probeUnavailable, true)
    ∧ probe_duration none = none
    ∧ (∀ s : String, findDuration s.data = none →
        probe_duration (some s) = none) := by
  obtain ⟨st, ta, du, ts, te'⟩ := raw
  dsimp only at hte
  subst hte
  refine ⟨by simp [resolveRange], rfl, ?_⟩
  intro s h
  simp [probe_duration, h]

/-- Witness for C6 at `trimEnd = 3` with an absent probe. -/
theorem c6_trim_end_needs_probe_witness :
    resolveRange ⟨none, none, none, none, some 3⟩ none
      = (.error .probeUnavailable, true) :=
  (c6_trim_end_needs_probe ⟨none, none, none, none, some 3⟩ 3 rfl).1

/-- C5: the fast→accurate fallback policy (vidcut.py lines 200-215) outside
dry-run: fast exit 0 succeeds via fast and never runs accurate; fast non-zero
(including the distinguished not-found code 127) runs accurate exactly once,
whose exit decides the outcome; forced accurate-only mode never runs fast
and a non-zero accurate exit is terminal failure; no command runs more than
once per input. -/
theorem c5_fallback_policy (pf dr : Bool) (fr ar : Except Unit ℤ) :
    (run_cmd_rc fr = 0 →
      executePolicy true false fr ar = ([.fast], .succeeded .fast))
    ∧ (run_cmd_rc fr ≠ 0 →
        executePolicy true false fr ar
          = if run_cmd_rc ar ≠ 0 then ([.fast, .accurate], .failed)
            else ([.fast, .accurate], .succeeded .accurate))
    ∧ Via.fast ∉ (executePolicy false false fr ar).1
    ∧ (run_cmd_rc ar ≠ 0 →
        executePolicy false false fr ar = ([.accurate], .failed))
    ∧ ((executePolicy pf dr fr ar).1.count .fast ≤ 1
        ∧ (executePolicy pf dr fr ar).1.count .accurate ≤ 1)
    ∧ run_cmd_rc (.error ()) = 127
    ∧ (∀ acc fflag : Bool,
        preferFastMode acc fflag = false ↔ acc = true ∧ fflag = false) := by
  refine ⟨?_, ?_, ?_, ?_, ?_, rfl, by decide⟩
  · intro h; simp [executePolicy, h]
  · intro h; by_cases h2 : run_cmd_rc ar = 0 <;> simp [executePolicy, h, h2]
  · by_cases h2 : run_cmd_rc ar = 0 <;> simp [executePolicy, h2]
  · intro h; simp [executePolicy, h]
  · cases pf <;> cases dr <;>
      by_cases h1 : run_cmd_rc fr = 0 <;> by_cases h2 : run_cmd_rc ar = 0 <;>
        simp [executePolicy, h1, h2]

/-- Witness for C5: fast exit 1 falls back to accurate; fast exit 0 stops at
fast; forced accurate with non-zero exit is terminal failure. -/
theorem c5_fallback_policy_witness :
    executePolicy true false (.ok 1) (.ok 0)
        = ([.fast, .accurate], .succeeded .accurate)
    ∧ executePolicy true false (.ok 0) (.ok 5) = ([.fast], .succeeded .fast)
    ∧ executePolicy false false (.error ()) (.ok 3)
        = ([.accurate], .failed) := by
  have h1 := (c5_fallback_policy true false (.ok 1) (.ok 0)).2.1 (by decide)
  have h2 := (c5_fallback_policy true false (.ok 0) (.ok 5)).1 (by decide)
  have h3 := (c5_fallback_policy false false (.error ()) (.ok 3)).2.2.2.1
    (by decide)
  exact ⟨by rw [h1]; decide, h2, h3⟩

/-! ### Token-level facts about the synthesized commands -/

theorem padLeft_length_ge (w : ℕ) (c : Char) (cs : List Char) :
    w ≤ (padLeft w c cs).length := by
  simp [padLeft]; omega

theorem fmt_shape_length (a b c d : List Char) :
    12 ≤ (padLeft 2 '0' a ++ ':' :: (padLeft 2 '0' b ++ ':' ::
      (padLeft 2 '0' c ++ '.' :: padLeft 3 '0' d))).length := by
  have h1 := padLeft_length_ge 2 '0' a
  have h2 := padLeft_length_ge 2 '0' b
  have h3 := padLeft_length_ge 2 '0' c
  have h4 := padLeft_length_ge 3 '0' d
  simp [List.length_append]
  omega

/-- Every `_fmt_time` output has at least the 12 characters of
`HH:MM:SS.mmm`, so it is never one of the short option tokens. -/
theorem fmt_time_data_length (t : ℚ) : 12 ≤ (fmt_time t).data.length :=
  fmt_shape_length _ _ _ _

theorem fmt_time_ne_short (t : ℚ) (s : String) (hs : s.data.length < 12) :
    fmt_time t ≠ s := by
  intro h
  have h12 := fmt_time_data_length t
  rw [h] at h12
  omega

/-- Complete token-membership characterization of the fast command. -/
theorem mem_build_fast (tok f i o : String) (st d : Option ℚ) (ow : Bool) :
    tok ∈ build_fast_cmd f i o st d ow ↔
      tok = f ∨ tok = "-hide_banner" ∨ tok = (if ow then "-y" else "-n")
      ∨ (∃ v, st = some v ∧ (tok = "-ss" ∨ tok = fmt_time v))
      ∨ tok = "-i" ∨ tok = i
      ∨ (∃ v, d = some v ∧ (tok = "-t" ∨ tok = fmt_time (max 0 v)))
      ∨ tok = "-map" ∨ tok = "0" ∨ tok = "-c" ∨ tok = "copy"
      ∨ tok = "-avoid_negative_ts" ∨ tok = "make_zero"
      ∨ (is_mp4 o = true ∧ (tok = "-movflags" ∨ tok = "+faststart"))
      ∨ tok = o := by
  cases st <;> cases d <;> cases hm : is_mp4 o <;>
    simp [build_fast_cmd, hm, or_assoc]

/-- Complete token-membership characterization of the accurate command. -/
theorem mem_build_acc (tok f i o : String) (st d : Option ℚ) (ow : Bool) :
    tok ∈ build_acc_cmd f i o st d ow ↔
      tok = f ∨ tok = "-hide_banner" ∨ tok = (if ow then "-y" else "-n")
      ∨ tok = "-i" ∨ tok = i
      ∨ (∃ v, st = some v ∧ (tok = "-ss" ∨ tok = fmt_time v))
      ∨ (∃ v, d = some v ∧ (tok = "-t" ∨ tok = fmt_time (max 0 v)))
      ∨ tok = "-map" ∨ tok = "0" ∨ tok = "-c:v" ∨ tok = "libx264"
      ∨ tok = "-preset" ∨ tok = "veryfast" ∨ tok = "-crf" ∨ tok = "18"
      ∨ tok = "-c:a" ∨ tok = "copy"
      ∨ (is_mp4 o = true ∧ (tok = "-movflags" ∨ tok = "+faststart"))
      ∨ tok = o := by
  cases st <;> cases d <;> cases hm : is_mp4 o <;>
    simp [build_acc_cmd, hm, or_assoc]

/-- C8: the fast command carries `-ss` (with its formatted value) strictly
before `-i`, and stream-copies (`-c copy`); the accurate command carries
`-ss` strictly after `-i` and re-encodes video while copying audio
(`-c:v libx264 … -c:a copy`); in both, `-t` is present (with the clamped
formatted duration) exactly when a bounded duration is supplied, and absent
from the whole command when the duration is unbounded. -/
theorem c8_command_shapes (f i o : String) (st dv : ℚ) (d : Option ℚ) (ow : Bool)
    (h1 : f ≠ "-t") (h2 : i ≠ "-t") (h3 : o ≠ "-t") :
    (∃ rest, build_fast_cmd f i o (some st) d ow
        = [f, "-hide_banner", if ow then "-y" else "-n", "-ss", fmt_time st,
           "-i", i] ++ rest)
    ∧ (∃ rest, build_acc_cmd f i o (some st) d ow
        = [f, "-hide_banner", if ow then "-y" else "-n", "-i", i, "-ss",
           fmt_time st] ++ rest)
    ∧ (∃ l r, build_fast_cmd f i o (some st) d ow
        = l ++ ["-map", "0", "-c", "copy", "-avoid_negative_ts", "make_zero"]
          ++ r)
    ∧ (∃ l r, build_acc_cmd f i o (some st) d ow
        = l ++ ["-c:v", "libx264", "-preset", "veryfast", "-crf", "18",
                "-c:a", "copy"] ++ r)
    ∧ (d = none → "-t" ∉ build_fast_cmd f i o (some st) d ow
        ∧ "-t" ∉ build_acc_cmd f i o (some st) d ow)
    ∧ (∃ l r, build_fast_cmd f i o (some st) (some dv) ow
        = l ++ ["-t", fmt_time (max 0 dv)] ++ r)
    ∧ (∃ l r, build_acc_cmd f i o (some st) (some dv) ow
        = l ++ ["-t", fmt_time (max 0 dv)] ++ r) := by
  have hft : ∀ v : ℚ, ("-t" : String) ≠ fmt_time v :=
    fun v => (fmt_time_ne_short v "-t" (by decide)).symm
  refine ⟨?_, ?_, ?_, ?_, ?_, ?_, ?_⟩
  · exact ⟨(match d with
      | some v => ["-t", fmt_time (max 0 v)]
      | none => [])
      ++ (["-map", "0", "-c", "copy", "-avoid_negative_ts", "make_zero"]
        ++ ((if is_mp4 o then ["-movflags", "+faststart"] else []) ++ [o])),
      by cases d <;> simp [build_fast_cmd]⟩
  · exact ⟨(match d with
      | some v => ["-t", fmt_time (max 0 v)]
      | none => [])
      ++ (["-map", "0", "-c:v", "libx264", "-preset", "veryfast", "-crf",
           "18", "-c:a", "copy"]
        ++ ((if is_mp4 o then ["-movflags", "+faststart"] else []) ++ [o])),
      by cases d <;> simp [build_acc_cmd]⟩
  · cases d with
    | none =>
      exact ⟨[f, "-hide_banner", if ow then "-y" else "-n", "-ss",
        fmt_time st, "-i", i],
        (if is_mp4 o then ["-movflags", "+faststart"] else []) ++ [o],
        by simp [build_fast_cmd]⟩
    | some v =>
      exact ⟨[f, "-hide_banner", if ow then "-y" else "-n", "-ss",
        fmt_time st, "-i", i, "-t", fmt_time (max 0 v)],
        (if is_mp4 o then ["-movflags", "+faststart"] else []) ++ [o],
        by simp [build_fast_cmd]⟩
  · cases d with
    | none =>
      exact ⟨[f, "-hide_banner", if ow then "-y" else "-n", "-i", i, "-ss",
        fmt_time st, "-map", "0"],
        (if is_mp4 o then ["-movflags", "+faststart"] else []) ++ [o],
        by simp [build_acc_cmd]⟩
    | some v =>
      exact ⟨[f, "-hide_banner", if ow then "-y" else "-n", "-i", i, "-ss",
        fmt_time st, "-t", fmt_time (max 0 v), "-map", "0"],
        (if is_mp4 o then ["-movflags", "+faststart"] else []) ++ [o],
        by simp [build_acc_cmd]⟩
  · rintro rfl
    constructor
    · rw [mem_build_fast]
      cases ow <;> simp [Ne.symm h1, Ne.symm h2, Ne.symm h3, hft]
    · rw [mem_build_acc]
      cases ow <;> simp [Ne.symm h1, Ne.symm h2, Ne.symm h3, hft]
  · exact ⟨[f, "-hide_banner", if ow then "-y" else "-n", "-ss", fmt_time st,
      "-i", i],
      ["-map", "0", "-c", "copy", "-avoid_negative_ts", "make_zero"]
        ++ ((if is_mp4 o then ["-movflags", "+faststart"] else []) ++ [o]),
      by simp [build_fast_cmd]⟩
  · exact ⟨[f, "-hide_banner", if ow then "-y" else "-n", "-i", i, "-ss",
      fmt_time st],
      ["-map", "0", "-c:v", "libx264", "-preset", "veryfast", "-crf", "18",
       "-c:a", "copy"]
        ++ ((if is_mp4 o then ["-movflags", "+faststart"] else []) ++ [o]),
      by simp [build_acc_cmd]⟩

/-- Witness for C8: concrete commands with unbounded duration never carry the
`-t` token. -/
theorem c8_command_shapes_witness :
    "-t" ∉ build_fast_cmd "ffmpeg" "in.mkv" "out.mkv" (some 1) none true
    ∧ "-t" ∉ build_acc_cmd "ffmpeg" "in.mkv" "out.mkv" (some 1) none true :=
  (c8_command_shapes "ffmpeg" "in.mkv" "out.mkv" 1 2 none true
    (by decide) (by decide) (by decide)).2.2.2.2.1 rfl

/-- C10: `main` passes the start as `s if s > 0 else None`; a start of 0
(or below) makes both builders omit the `-ss` token entirely, and `-ss`
appears in a command exactly when the resolved effective start is
strictly positive. -/
theorem c10_start_token_iff (f i o : String) (d : Option ℚ) (ow : Bool) (s : ℚ)
    (h1 : f ≠ "-ss") (h2 : i ≠ "-ss") (h3 : o ≠ "-ss") :
    (s = 0 → startArg s = none)
    ∧ ("-ss" ∈ build_fast_cmd f i o (startArg s) d ow ↔ 0 < s)
    ∧ ("-ss" ∈ build_acc_cmd f i o (startArg s) d ow ↔ 0 < s) := by
  have hfs : ∀ v : ℚ, ("-ss" : String) ≠ fmt_time v :=
    fun v => (fmt_time_ne_short v "-ss" (by decide)).symm
  refine ⟨fun hs => by simp [startArg, hs], ?_, ?_⟩
  · by_cases hp : 0 < s
    · simp [startArg, hp, mem_build_fast]
    · cases ow <;>
        simp [startArg, hp, mem_build_fast, Ne.symm h1, Ne.symm h2,
          Ne.symm h3, hfs]
  · by_cases hp : 0 < s
    · simp [startArg, hp, mem_build_acc]
    · cases ow <;>
        simp [startArg, hp, mem_build_acc, Ne.symm h1, Ne.symm h2,
          Ne.symm h3, hfs]

/-- Witness for C10: start 0 yields no `-ss` token, start 5 yields one. -/
theorem c10_start_token_iff_witness :
    startArg (0 : ℚ) = none
    ∧ "-ss" ∉ build_fast_cmd "ffmpeg" "in.mkv" "out.mkv" (startArg 0) none true
    ∧ "-ss" ∈ build_fast_cmd "ffmpeg" "in.mkv" "out.mkv" (startArg 5) none true
    := by
  have h0 := c10_start_token_iff "ffmpeg" "in.mkv" "out.mkv" none true 0
    (by decide) (by decide) (by decide)
  have h5 := c10_start_token_iff "ffmpeg" "in.mkv" "out.mkv" none true 5
    (by decide) (by decide) (by decide)
  refine ⟨h0.1 rfl, fun hm => ?_, h5.2.1.mpr (by norm_num)⟩
  have := h0.2.1.mp hm
  norm_num at this


theorem digitChar_toNat (d : ℕ) (h : d < 10) : (digitChar d).toNat = 48 + d := by
  interval_cases d <;> decide

theorem digitsVal_concat (xs : List Char) (c : Char) :
    digitsVal (xs ++ [c]) = 10 * digitsVal xs + (c.toNat - 48) := by
  simp [digitsVal, List.foldl_append]

theorem natCharsAux_spec (f : ℕ) : ∀ n, n < 10 ^ f →
    (∀ c ∈ natCharsAux f n, 48 ≤ c.toNat ∧ c.toNat ≤ 57)
    ∧ digitsVal (natCharsAux f n) = n := by
  induction f with
  | zero =>
    intro n hn
    have hz : n = 0 := by simpa using hn
    subst hz
    simp [natCharsAux, digitsVal]
  | succ f ih =>
    intro n hn
    by_cases h10 : n < 10
    · rw [natCharsAux, if_pos h10]
      refine ⟨?_, ?_⟩
      · intro c hc
        simp only [List.mem_singleton] at hc
        subst hc
        rw [digitChar_toNat n h10]
        omega
      · simp [digitsVal, digitChar_toNat n h10]
    · have hdiv : n / 10 < 10 ^ f := by
        rw [Nat.div_lt_iff_lt_mul (by norm_num)]
        calc n < 10 ^ (f + 1) := hn
        _ = 10 ^ f * 10 := by ring
      obtain ⟨hmem, hval⟩ := ih (n / 10) hdiv
      rw [natCharsAux, if_neg h10]
      refine ⟨?_, ?_⟩
      · intro c hc
        rcases List.mem_append.mp hc with h | h
        · exact hmem c h
        · simp only [List.mem_singleton] at h
          subst h
          rw [digitChar_toNat (n % 10) (by omega)]
          omega
      · rw [digitsVal_concat, hval, digitChar_toNat (n % 10) (by omega)]
        omega

theorem natChars_spec (n : ℕ) :
    (∀ c ∈ natChars n, 48 ≤ c.toNat ∧ c.toNat ≤ 57)
    ∧ digitsVal (natChars n) = n := by
  refine natCharsAux_spec (n + 1) n ?_
  calc n < 10 ^ n := Nat.lt_pow_self (by norm_num) n
  _ ≤ 10 ^ (n + 1) := Nat.pow_le_pow_right (by norm_num) (Nat.le_succ n)

theorem natChars_ne_nil (n : ℕ) : natChars n ≠ [] := by
  rw [natChars, natCharsAux]
  split <;> simp

theorem dropWhile_eq_self_of (p : Char → Bool) (l : List Char)
    (h : ∀ c ∈ l, p c = false) : l.dropWhile p = l := by
  cases l with
  | nil => rfl
  | cons a r => simp [List.dropWhile, h a (List.mem_cons_self a r)]

theorem stripWs_eq_self (cs : List Char) (h : ∀ c ∈ cs, isWsCh c = false) :
    stripWs cs = cs := by
  unfold stripWs
  rw [dropWhile_eq_self_of _ _ h,
    dropWhile_eq_self_of _ _ (fun c hc => h c (List.mem_reverse.mp hc)),
    List.reverse_reverse]

theorem isWsCh_false_of_plain (c : Char) (h : plainChar c) : isWsCh c = false := by
  rcases h with ⟨h1, h2⟩ | h1 | h1 <;>
    (simp only [isWsCh, Bool.or_eq_false_iff, beq_eq_false_iff_ne]; omega)

theorem lowerCh_id_of_plain (c : Char) (h : plainChar c) : lowerCh c = c := by
  rcases h with ⟨h1, h2⟩ | h1 | h1 <;>
    (unfold lowerCh; rw [if_neg]; omega)

theorem strip_lower_id (cs : List Char) (h : ∀ c ∈ cs, plainChar c) :
    (stripWs cs).map lowerCh = cs := by
  rw [stripWs_eq_self cs (fun c hc => isWsCh_false_of_plain c (h c hc))]
  induction cs with
  | nil => rfl
  | cons a r ih =>
    simp only [List.map_cons]
    rw [lowerCh_id_of_plain a (h a (List.mem_cons_self a r)),
      ih (fun c hc => h c (List.mem_cons_of_mem a hc))]

theorem splitOnCh_not_mem (sep : Char) (cs : List Char) (h : sep ∉ cs) :
    splitOnCh sep cs = [cs] := by
  induction cs with
  | nil => rfl
  | cons c r ih =>
    rw [splitOnCh]
    have hc : ¬c = sep := fun he => h (he ▸ List.mem_cons_self c r)
    rw [if_neg hc, ih (fun hm => h (List.mem_cons_of_mem c hm))]

theorem splitOnCh_append (sep : Char) (xs ys : List Char) (h : sep ∉ xs) :
    splitOnCh sep (xs ++ sep :: ys) = xs :: splitOnCh sep ys := by
  induction xs with
  | nil => simp [splitOnCh]
  | cons x xr ih =>
    have hx : ¬x = sep := fun he => h (he ▸ List.mem_cons_self x xr)
    rw [List.cons_append, splitOnCh, if_neg hx,
      ih (fun hm => h (List.mem_cons_of_mem x hm))]

theorem not_ends_s (cs : List Char) (h : ∀ c ∈ cs, c.toNat ≠ 115) :
    listEndsWith cs ['s'] = false ∧ listEndsWith cs ['m', 's'] = false := by
  unfold listEndsWith
  cases hrev : cs.reverse with
  | nil => exact ⟨rfl, rfl⟩
  | cons c r =>
    have hc : c ∈ cs := by
      rw [← List.mem_reverse, hrev]; exact List.mem_cons_self c r
    have hbe : ('s' == c) = false := by
      rw [beq_eq_false_iff_ne]
      intro he
      exact h c hc (he ▸ rfl)
    constructor <;> simp [isPrefixOfCh, hbe]

theorem ends_with_s (cs : List Char) (h : ∀ c ∈ cs, c.toNat ≠ 109) :
    listEndsWith (cs ++ ['s']) ['m', 's'] = false
    ∧ listEndsWith (cs ++ ['s']) ['s'] = true := by
  unfold listEndsWith
  rw [List.reverse_append]
  constructor
  · cases hrev : cs.reverse with
    | nil => simp [isPrefixOfCh]
    | cons c r =>
      have hc : c ∈ cs := by
        rw [← List.mem_reverse, hrev]; exact List.mem_cons_self c r
      have hbe : ('m' == c) = false := by
        rw [beq_eq_false_iff_ne]
        intro he
        exact h c hc (he ▸ rfl)
      simp [isPrefixOfCh, hbe]
  · simp [isPrefixOfCh]

theorem ends_with_ms (cs : List Char) :
    listEndsWith (cs ++ ['m', 's']) ['m', 's'] = true := by
  unfold listEndsWith
  rw [List.reverse_append]
  simp [isPrefixOfCh]

theorem signSplit_no_sign (c : Char) (r : List Char) (h1 : c ≠ '-')
    (h2 : c ≠ '+') : signSplit (c :: r) = (false, c :: r) := by
  simp only [signSplit]
  split <;> simp_all

theorem fracVal_map_digitChar (fds : List ℕ) (h : ∀ d ∈ fds, d < 10) :
    fracVal (fds.map digitChar) = fracDigitsVal fds := by
  induction fds with
  | nil => rfl
  | cons d rest ih =>
    simp only [List.map_cons, fracVal, fracDigitsVal, List.foldr_cons]
    rw [digitChar_toNat d (h d (List.mem_cons_self d rest))]
    have hrest := ih (fun x hx => h x (List.mem_cons_of_mem d hx))
    simp only [fracVal, fracDigitsVal] at hrest
    rw [hrest]
    norm_num

theorem parseFloat_digits (cs : List Char) (hne : cs ≠ [])
    (hd : ∀ c ∈ cs, 48 ≤ c.toNat ∧ c.toNat ≤ 57) :
    parseFloat cs = some ((digitsVal cs : ℚ)) := by
  obtain ⟨c, r, rfl⟩ : ∃ c r, cs = c :: r := by
    cases cs with
    | nil => exact absurd rfl hne
    | cons c r => exact ⟨c, r, rfl⟩
  have hws : ∀ x ∈ c :: r, isWsCh x = false := fun x hx => by
    have := hd x hx
    simp only [isWsCh, Bool.or_eq_false_iff, beq_eq_false_iff_ne]
    omega
  have hc := hd c (List.mem_cons_self c r)
  have hminus : c ≠ '-' := fun he => by
    rw [he, show ('-' : Char).toNat = 45 from rfl] at hc; omega
  have hplus : c ≠ '+' := fun he => by
    rw [he, show ('+' : Char).toNat = 43 from rfl] at hc; omega
  have hdot : '.' ∉ c :: r := fun hm => by
    have h1 := (hd '.' hm).1
    rw [show ('.' : Char).toNat = 46 from rfl] at h1
    omega
  have hall : (c :: r).all isDigitCh = true := by
    rw [List.all_eq_true]
    intro x hx
    have := hd x hx
    simp only [isDigitCh, Bool.and_eq_true, decide_eq_true_eq]
    omega
  unfold parseFloat
  rw [stripWs_eq_self _ hws]
  dsimp only
  rw [signSplit_no_sign c r hminus hplus]
  dsimp only
  rw [splitOnCh_not_mem '.' _ hdot]
  simp [hall]

theorem parseFloat_renderDec (ip : ℕ) (fds : List ℕ)
    (h : ∀ d ∈ fds, d < 10) :
    parseFloat (renderDec ip fds) = some (decimalVal ip fds) := by
  have hip := natChars_spec ip
  have hfd : ∀ c ∈ fds.map digitChar, 48 ≤ c.toNat ∧ c.toNat ≤ 57 := by
    intro c hc
    obtain ⟨d, hdm, rfl⟩ := List.mem_map.mp hc
    rw [digitChar_toNat d (h d hdm)]
    have := h d hdm
    omega
  have hws : ∀ x ∈ renderDec ip fds, isWsCh x = false := by
    intro x hx
    rcases List.mem_append.mp hx with hx | hx
    · have := hip.1 x hx
      simp only [isWsCh, Bool.or_eq_false_iff, beq_eq_false_iff_ne]
      omega
    · rcases List.mem_cons.mp hx with rfl | hx
      · rfl
      · have := hfd x hx
        simp only [isWsCh, Bool.or_eq_false_iff, beq_eq_false_iff_ne]
        omega
  obtain ⟨c, r, hcr⟩ : ∃ c r, natChars ip = c :: r := by
    cases hn : natChars ip with
    | nil => exact absurd hn (natChars_ne_nil ip)
    | cons c r => exact ⟨c, r, rfl⟩
  have hc := hip.1 c (by rw [hcr]; exact List.mem_cons_self c r)
  have hminus : c ≠ '-' := fun he => by
    rw [he, show ('-' : Char).toNat = 45 from rfl] at hc; omega
  have hplus : c ≠ '+' := fun he => by
    rw [he, show ('+' : Char).toNat = 43 from rfl] at hc; omega
  have hdot1 : '.' ∉ natChars ip := fun hm => by
    have h1 := (hip.1 '.' hm).1
    rw [show ('.' : Char).toNat = 46 from rfl] at h1
    omega
  have hdot2 : '.' ∉ fds.map digitChar := fun hm => by
    have h1 := (hfd '.' hm).1
    rw [show ('.' : Char).toNat = 46 from rfl] at h1
    omega
  have hall1 : (natChars ip).all isDigitCh = true := by
    rw [List.all_eq_true]
    intro x hx
    have := hip.1 x hx
    simp only [isDigitCh, Bool.and_eq_true, decide_eq_true_eq]
    omega
  have hall2 : (fds.map digitChar).all isDigitCh = true := by
    rw [List.all_eq_true]
    intro x hx
    have := hfd x hx
    simp only [isDigitCh, Bool.and_eq_true, decide_eq_true_eq]
    omega
  unfold parseFloat
  rw [stripWs_eq_self _ hws]
  unfold renderDec
  rw [hcr, List.cons_append]
  dsimp only
  rw [signSplit_no_sign _ _ hminus hplus]
  dsimp only
  rw [← List.cons_append, ← hcr, splitOnCh_append '.' _ _ hdot1,
    splitOnCh_not_mem '.' _ hdot2]
  simp [hall1, hall2, natChars_ne_nil ip, decimalVal, hip.2,
    fracVal_map_digitChar fds h]

theorem parseFloat_natChars (n : ℕ) : parseFloat (natChars n) = some (n : ℚ) := by
  have h := natChars_spec n
  rw [parseFloat_digits (natChars n) (natChars_ne_nil n) h.1, h.2]

theorem renderDec_mem_bounds (ip : ℕ) (fds : List ℕ) (h : ∀ d ∈ fds, d < 10) :
    ∀ c ∈ renderDec ip fds, 46 ≤ c.toNat ∧ c.toNat ≤ 57 := by
  intro c hc
  rcases List.mem_append.mp hc with hx | hx
  · have := (natChars_spec ip).1 c hx
    omega
  · rcases List.mem_cons.mp hx with rfl | hx
    · exact ⟨by decide, by decide⟩
    · obtain ⟨d, hdm, rfl⟩ := List.mem_map.mp hx
      rw [digitChar_toNat d (h d hdm)]
      have := h d hdm
      omega

theorem parseTimeCs_no_colon (cs : List Char) (hplain : ∀ c ∈ cs, plainChar c)
    (hnos : ∀ c ∈ cs, c.toNat ≠ 115) (hnoc : ':' ∉ cs) :
    parseTimeCs cs = parseFloat cs := by
  obtain ⟨h1, h2⟩ := not_ends_s cs hnos
  unfold parseTimeCs
  rw [strip_lower_id cs hplain]
  simp [h1, h2, hnoc]

theorem parseTimeCs_s_suffix (cs : List Char) (hplain : ∀ c ∈ cs, plainChar c)
    (hno109 : ∀ c ∈ cs, c.toNat ≠ 109) (hnoc : ':' ∉ cs) :
    parseTimeCs (cs ++ ['s']) = parseFloat cs := by
  have hplain2 : ∀ c ∈ cs ++ ['s'], plainChar c := by
    intro c hc
    rcases List.mem_append.mp hc with hx | hx
    · exact hplain c hx
    · rcases List.mem_singleton.mp hx with rfl
      exact Or.inr (Or.inr rfl)
  obtain ⟨e1, e2⟩ := ends_with_s cs hno109
  unfold parseTimeCs
  rw [strip_lower_id _ hplain2]
  simp [e1, e2, List.dropLast_concat, hnoc]

theorem parseTimeCs_ms_suffix (cs : List Char) (hplain : ∀ c ∈ cs, plainChar c) :
    parseTimeCs (cs ++ ['m', 's']) = (parseFloat cs).map (· / 1000) := by
  have hplain2 : ∀ c ∈ cs ++ ['m', 's'], plainChar c := by
    intro c hc
    rcases List.mem_append.mp hc with hx | hx
    · exact hplain c hx
    · rcases List.mem_cons.mp hx with rfl | hx
      · exact Or.inr (Or.inl rfl)
      · rcases List.mem_singleton.mp hx with rfl
        exact Or.inr (Or.inr rfl)
  have hdl : ((cs ++ ['m', 's']).dropLast).dropLast = cs := by
    rw [show cs ++ ['m', 's'] = (cs ++ ['m']) ++ ['s'] by simp,
      List.dropLast_concat, List.dropLast_concat]
  unfold parseTimeCs
  rw [strip_lower_id _ hplain2]
  simp [ends_with_ms, hdl]

theorem parseTimeCs_colon2 (a b : List Char)
    (hpa : ∀ c ∈ a, plainChar c) (hpb : ∀ c ∈ b, plainChar c)
    (hnsa : ∀ c ∈ a, c.toNat ≠ 115) (hnsb : ∀ c ∈ b, c.toNat ≠ 115)
    (hnca : ':' ∉ a) (hncb : ':' ∉ b)
    (va vb : ℚ) (hva : parseFloat a = some va) (hvb : parseFloat b = some vb) :
    parseTimeCs (a ++ ':' :: b) = some (va * 60 + vb) := by
  have hplainW : ∀ c ∈ a ++ ':' :: b, plainChar c := by
    intro c hc
    rcases List.mem_append.mp hc with hx | hx
    · exact hpa c hx
    · rcases List.mem_cons.mp hx with rfl | hx
      · exact Or.inl ⟨by decide, by decide⟩
      · exact hpb c hx
  have hnosW : ∀ c ∈ a ++ ':' :: b, c.toNat ≠ 115 := by
    intro c hc
    rcases List.mem_append.mp hc with hx | hx
    · exact hnsa c hx
    · rcases List.mem_cons.mp hx with rfl | hx
      · decide
      · exact hnsb c hx
  obtain ⟨e1, e2⟩ := not_ends_s _ hnosW
  have hmem : ':' ∈ a ++ ':' :: b := by simp
  unfold parseTimeCs
  rw [strip_lower_id _ hplainW]
  simp [e1, e2, hmem, splitOnCh_append ':' a b hnca,
    splitOnCh_not_mem ':' b hncb, List.mapM.loop, hva, hvb,
    padFront3]

theorem parseTimeCs_colon3 (a b c : List Char)
    (hpa : ∀ x ∈ a, plainChar x) (hpb : ∀ x ∈ b, plainChar x)
    (hpc : ∀ x ∈ c, plainChar x)
    (hnsa : ∀ x ∈ a, x.toNat ≠ 115) (hnsb : ∀ x ∈ b, x.toNat ≠ 115)
    (hnsc : ∀ x ∈ c, x.toNat ≠ 115)
    (hnca : ':' ∉ a) (hncb : ':' ∉ b) (hncc : ':' ∉ c)
    (va vb vc : ℚ) (hva : parseFloat a = some va)
    (hvb : parseFloat b = some vb) (hvc : parseFloat c = some vc) :
    parseTimeCs (a ++ ':' :: (b ++ ':' :: c)) = some (va * 3600 + vb * 60 + vc) := by
  have hplainW : ∀ x ∈ a ++ ':' :: (b ++ ':' :: c), plainChar x := by
    intro x hx
    rcases List.mem_append.mp hx with hy | hy
    · exact hpa x hy
    · rcases List.mem_cons.mp hy with rfl | hy
      · exact Or.inl ⟨by decide, by decide⟩
      · rcases List.mem_append.mp hy with hz | hz
        · exact hpb x hz
        · rcases List.mem_cons.mp hz with rfl | hz
          · exact Or.inl ⟨by decide, by decide⟩
          · exact hpc x hz
  have hnosW : ∀ x ∈ a ++ ':' :: (b ++ ':' :: c), x.toNat ≠ 115 := by
    intro x hx
    rcases List.mem_append.mp hx with hy | hy
    · exact hnsa x hy
    · rcases List.mem_cons.mp hy with rfl | hy
      · decide
      · rcases List.mem_append.mp hy with hz | hz
        · exact hnsb x hz
        · rcases List.mem_cons.mp hz with rfl | hz
          · decide
          · exact hnsc x hz
  obtain ⟨e1, e2⟩ := not_ends_s _ hnosW
  have hmem : ':' ∈ a ++ ':' :: (b ++ ':' :: c) := by simp
  unfold parseTimeCs
  rw [strip_lower_id _ hplainW]
  simp [e1, e2, hmem, splitOnCh_append ':' a _ hnca,
    splitOnCh_append ':' b c hncb, splitOnCh_not_mem ':' c hncc,
    List.mapM.loop, hva, hvb, hvc, padFront3]

/-- C7: on every rendered decimal string `n` (integer or with a fractional
part) `_parse_time` returns exactly its value; with suffix `s` the same
value; with suffix `ms` the value divided by 1000; on `h:m:s` it returns
`h*3600 + m*60 + s`, and a two-field `m:s` input is zero-padded by a
prepended zero-hours field, giving `m*60 + s`. -/
theorem c7_parse_grammar (n hh mm ip : ℕ) (fds : List ℕ)
    (hf : ∀ d ∈ fds, d < 10) :
    parse_time (String.mk (natChars n)) = some (n : ℚ)
    ∧ parse_time (String.mk (renderDec ip fds)) = some (decimalVal ip fds)
    ∧ parse_time (String.mk (renderDec ip fds ++ ['s']))
        = some (decimalVal ip fds)
    ∧ parse_time (String.mk (renderDec ip fds ++ ['m', 's']))
        = some (decimalVal ip fds / 1000)
    ∧ parse_time (String.mk
          (natChars hh ++ ':' :: (natChars mm ++ ':' :: renderDec ip fds)))
        = some ((hh : ℚ) * 3600 + (mm : ℚ) * 60 + decimalVal ip fds)
    ∧ parse_time (String.mk (natChars mm ++ ':' :: renderDec ip fds))
        = some ((mm : ℚ) * 60 + decimalVal ip fds) := by
  have hb := renderDec_mem_bounds ip fds hf
  have hrd_plain : ∀ c ∈ renderDec ip fds, plainChar c := fun c hc =>
    Or.inl ⟨(hb c hc).1, by have := (hb c hc).2; omega⟩
  have hrd_ns : ∀ c ∈ renderDec ip fds, c.toNat ≠ 115 := fun c hc => by
    have := (hb c hc).2; omega
  have hrd_n109 : ∀ c ∈ renderDec ip fds, c.toNat ≠ 109 := fun c hc => by
    have := (hb c hc).2; omega
  have hrd_nc : ':' ∉ renderDec ip fds := fun hm => by
    have := (hb _ hm).2
    rw [show (':' : Char).toNat = 58 from rfl] at this
    omega
  have hn_plain : ∀ k, ∀ c ∈ natChars k, plainChar c := fun k c hc =>
    Or.inl ⟨by have := ((natChars_spec k).1 c hc).1; omega,
      by have := ((natChars_spec k).1 c hc).2; omega⟩
  have hn_ns : ∀ k, ∀ c ∈ natChars k, c.toNat ≠ 115 := fun k c hc => by
    have := ((natChars_spec k).1 c hc).2; omega
  have hn_nc : ∀ k, ':' ∉ natChars k := fun k hm => by
    have := ((natChars_spec k).1 _ hm).2
    rw [show (':' : Char).toNat = 58 from rfl] at this
    omega
  refine ⟨?_, ?_, ?_, ?_, ?_, ?_⟩
  · show parseTimeCs (natChars n) = _
    rw [parseTimeCs_no_colon _ (hn_plain n) (hn_ns n) (hn_nc n),
      parseFloat_natChars]
  · show parseTimeCs (renderDec ip fds) = _
    rw [parseTimeCs_no_colon _ hrd_plain hrd_ns hrd_nc,
      parseFloat_renderDec ip fds hf]
  · show parseTimeCs (renderDec ip fds ++ ['s']) = _
    rw [parseTimeCs_s_suffix _ hrd_plain hrd_n109 hrd_nc,
      parseFloat_renderDec ip fds hf]
  · show parseTimeCs (renderDec ip fds ++ ['m', 's']) = _
    rw [parseTimeCs_ms_suffix _ hrd_plain, parseFloat_renderDec ip fds hf]
    rfl
  · show parseTimeCs _ = _
    exact parseTimeCs_colon3 _ _ _ (hn_plain hh) (hn_plain mm) hrd_plain
      (hn_ns hh) (hn_ns mm) hrd_ns (hn_nc hh) (hn_nc mm) hrd_nc _ _ _
      (parseFloat_natChars hh) (parseFloat_natChars mm)
      (parseFloat_renderDec ip fds hf)
  · show parseTimeCs _ = _
    exact parseTimeCs_colon2 _ _ (hn_plain mm) hrd_plain (hn_ns mm) hrd_ns
      (hn_nc mm) hrd_nc _ _ (parseFloat_natChars mm)
      (parseFloat_renderDec ip fds hf)

/-- Witness for C7 at `"90"`, `"3.5s"` and `"1:2:3.5"`. -/
theorem c7_parse_grammar_witness :
    parse_time "90" = some 90
    ∧ parse_time "3.5s" = some (7 / 2)
    ∧ parse_time "1:2:3.5" = some (3723 + 1 / 2) := by
  have h := c7_parse_grammar 90 1 2 3 [5] (by decide)
  refine ⟨h.1, ?_, ?_⟩
  · have h3 := h.2.2.1
    have e : String.mk (renderDec 3 [5] ++ ['s']) = "3.5s" := by decide
    rw [e] at h3
    rw [h3]
    decide
  · have h5 := h.2.2.2.2.1
    have e : String.mk
        (natChars 1 ++ ':' :: (natChars 2 ++ ':' :: renderDec 3 [5]))
        = "1:2:3.5" := by decide
    rw [e] at h5
    rw [h5]
    decide

/-- C9 (amended): `_parse_time` can return negative values (see the
counterexample), but whenever the supplied start is absent or non-negative
the resolved effective start is ≥ 0, and every bounded duration of a
successfully resolved range is ≥ 0 — negative subtractions are clamped to 0
(lines 189-190) except in the trim-end branch, which fails instead of
going negative (line 196). -/
theorem c9_amended (raw : RawTimeInputs) (probe : Option ℚ)
    (hs : ∀ v, raw.start = some v → 0 ≤ v) :
    0 ≤ effectiveStart raw
    ∧ ∀ s d, (resolveRange raw probe).1 = .ok (s, some d) → 0 ≤ d := by
  obtain ⟨st, ta, du, ts, te⟩ := raw
  dsimp only at hs
  constructor
  · have hbase : (0 : ℚ) ≤ st.getD 0 := by
      cases st with
      | none => simp
      | some v => simpa using hs v rfl
    unfold effectiveStart
    cases ts with
    | none => exact hbase
    | some t =>
      dsimp only
      by_cases ht : t = 0
      · simp [ht, hbase]
      · rw [if_neg ht]
        exact le_max_left 0 _
  · intro s d hok
    cases te with
    | none =>
      simp only [resolveRange, Option.isSome_none, Bool.or_false,
        Bool.and_false, Bool.false_and, if_false] at hok
      cases ta with
      | some e =>
        by_cases he : 0 ≤ e
        · simp [he] at hok
          rw [← hok.2]
          exact le_max_left 0 _
        · simp [he] at hok
          cases du with
          | some dv =>
            simp at hok
            rw [← hok.2]
            exact le_max_left 0 _
          | none => simp at hok
      | none =>
        cases du with
        | some dv =>
          simp at hok
          rw [← hok.2]
          exact le_max_left 0 _
        | none => simp at hok
    | some t' =>
      cases probe with
      | none => simp [resolveRange] at hok
      | some Dv =>
        simp [resolveRange] at hok
        split at hok
        · simp at hok
        · next hcond =>
          simp at hok
          rw [← hok.2]
          rcases not_and_or.mp hcond with h1 | h1
          · have hle : effectiveStart ⟨st, ta, du, ts, some t'⟩ ≤ max 0 (Dv - t') :=
              le_trans (not_lt.mp h1) (le_max_left 0 _)
            linarith [hle]
          · have hle : effectiveStart ⟨st, ta, du, ts, some t'⟩ ≤ max 0 (Dv - t') :=
              le_trans (not_lt.mp h1) (le_max_right 0 _)
            linarith [hle]

/-- Witness for C9's amended theorem: start 3 with trim-start 2 gives
effective start 5 ≥ 0, and the resolved bounded duration 10 is ≥ 0. -/
theorem c9_amended_witness :
    0 ≤ effectiveStart ⟨some 3, none, some 10, some 2, none⟩
    ∧ (0 : ℚ) ≤ 10 := by
  have h := c9_amended ⟨some 3, none, some 10, some 2, none⟩ none
    (fun v hv => by cases hv; norm_num)
  exact ⟨h.1, h.2 5 10 (by decide)⟩
